import Mathlib

/-!
Verification of the square-free factorization engine of the `math2` repository.

Polynomials are embedded as dense coefficient lists (index = degree), the
representation described in the specification.  The `Polynomial` value type and
its arithmetic primitives live in the repository's root module, which is not
part of the sources given here; those primitives are modelled from the
specification's §4.2 (each such definition is marked `Modelled from the
spec:`).  The code of `factorization.rs`, `traits.rs` and `print.rs` is
translated directly.
-/

namespace Math2

/-- Modelled from the spec: the dense representation keeps coefficients
indexed by degree and trims trailing zero coefficients so that the degree
stays well defined.  `trim` removes the trailing zeros of a coefficient
list (missing from `src/`, which lacks the root module defining
`Polynomial`). -/
def trim {R : Type} [Zero R] [DecidableEq R] : List R → List R
  | [] => []
  | c :: l => if trim l = [] then (if c = 0 then [] else [c]) else c :: trim l

/-- Modelled from the spec: `is_zero` is a value-level comparison honoring the
zero-trimming invariant — a polynomial is zero iff all stored coefficients
are zero. -/
def is_zero {R : Type} [Zero R] [DecidableEq R] (l : List R) : Prop :=
  trim l = []

instance {R : Type} [Zero R] [DecidableEq R] (l : List R) : Decidable (is_zero l) :=
  inferInstanceAs (Decidable (trim l = []))

/-- Modelled from the spec: `is_one` compares against the multiplicative
identity, honoring the zero-trimming invariant. -/
def is_one {R : Type} [Zero R] [One R] [DecidableEq R] (l : List R) : Prop :=
  trim l = [1]

instance {R : Type} [Zero R] [One R] [DecidableEq R] (l : List R) : Decidable (is_one l) :=
  inferInstanceAs (Decidable (trim l = [1]))

/-- Modelled from the spec: the degree is the highest index holding a non-zero
coefficient, absent (`none`) for the zero polynomial. -/
def degree {R : Type} [Zero R] [DecidableEq R] (l : List R) : Option ℕ :=
  if trim l = [] then none else some ((trim l).length - 1)

/-- Modelled from the spec: the leading coefficient is the coefficient at the
degree index (`0` is returned for the zero polynomial, whose leading
coefficient the spec leaves undefined). -/
def leading_coefficient_cloned {R : Type} [Zero R] [DecidableEq R] (l : List R) : R :=
  (trim l).getLastD 0

/-- Modelled from the spec: scalar multiplication multiplies every coefficient
by a ring element (result trimmed). -/
def scalar_mul {R : Type} [Zero R] [Mul R] [DecidableEq R] (c : R) (l : List R) : List R :=
  trim (l.map fun a => c * a)

/-- Modelled from the spec: raw element-wise addition over the union of index
ranges, missing indices treated as zero. -/
def add_aux {R : Type} [Add R] : List R → List R → List R
  | [], b => b
  | a, [] => a
  | a :: as', b :: bs => (a + b) :: add_aux as' bs

/-- Modelled from the spec: polynomial addition (element-wise, trimmed). -/
def poly_add {R : Type} [Zero R] [Add R] [DecidableEq R] (a b : List R) : List R :=
  trim (add_aux a b)

/-- Modelled from the spec: polynomial negation (element-wise, trimmed). -/
def poly_neg {R : Type} [Zero R] [Neg R] [DecidableEq R] (l : List R) : List R :=
  trim (l.map fun c => -c)

/-- Modelled from the spec: subtraction is `a + (-b)`. -/
def poly_sub {R : Type} [Zero R] [Add R] [Neg R] [DecidableEq R] (a b : List R) : List R :=
  poly_add a (poly_neg b)

/-- Modelled from the spec: multiplication of a polynomial by the monomial
`c * X^k`, used by classical long division to eliminate the current leading
term. -/
def mul_shift {R : Type} [Zero R] [Mul R] [DecidableEq R] (c : R) (k : ℕ) (l : List R) : List R :=
  trim (List.replicate k 0 ++ l.map fun a => c * a)

/-- Modelled from the spec: helper for the derivative, multiplying the
coefficient of `X^k` by `k` lifted into the ring (the `FromUsize`
capability). -/
def deriv_aux {R : Type} [Semiring R] : ℕ → List R → List R
  | _, [] => []
  | k, c :: l => ((k : R) * c) :: deriv_aux (k + 1) l

/-- Modelled from the spec: the derivative maps coefficients `c_0, …, c_n` to
`c_1, 2·c_2, …, n·c_n`. -/
def derivative {R : Type} [Semiring R] [DecidableEq R] (l : List R) : List R :=
  trim (deriv_aux 1 (l.drop 1))

/-- Modelled from the spec: classical polynomial long division with explicit
fuel (one unit per eliminated leading term).  Returns `(quotient,
remainder)`.  The remainder is zero or of degree strictly below the
divisor's.  On the zero divisor the source panics; that unreachable branch
(the algorithm always divides by a non-zero gcd) is modelled as quotient `0`,
remainder the dividend. -/
def div_rem_aux {F : Type} [Field F] [DecidableEq F] : ℕ → List F → List F → List F × List F
  | 0, a, _ => ([], trim a)
  | fuel + 1, a, b =>
    let ta := trim a
    let tb := trim b
    if tb = [] then ([], ta)
    else if ta.length < tb.length then ([], ta)
    else
      let c := ta.getLastD 0 / tb.getLastD 0
      let k := ta.length - tb.length
      let a' := poly_sub ta (mul_shift c k tb)
      let qr := div_rem_aux fuel a' b
      (poly_add (mul_shift c k [1]) qr.1, qr.2)

/-- Modelled from the spec: division with remainder; the fuel
`(trim a).length + 1` always suffices because each elimination step strictly
lowers the running remainder's degree. -/
def div_rem {F : Type} [Field F] [DecidableEq F] (a b : List F) : List F × List F :=
  div_rem_aux ((trim a).length + 1) a b

/-- Modelled from the spec: Euclidean gcd with explicit fuel — repeatedly
replace `(a, b)` by `(b, a mod b)` until the second element is zero, and
return the first element, not forced monic. -/
def poly_gcd_aux {F : Type} [Field F] [DecidableEq F] : ℕ → List F → List F → List F
  | 0, a, _ => a
  | fuel + 1, a, b => if trim b = [] then a else poly_gcd_aux fuel b (div_rem a b).2

/-- Modelled from the spec: the Euclidean gcd; the fuel `(trim b).length + 1`
always suffices because the remainder's degree strictly decreases. -/
def poly_gcd {F : Type} [Field F] [DecidableEq F] (a b : List F) : List F :=
  poly_gcd_aux ((trim b).length + 1) a b

/-- Checked inversion, from `impl CheckedInv for BigRational`
(`src/src/traits.rs` lines 63–71) and the spec's generic `CheckedInv`
contract: `none` exactly on the additive identity, otherwise the
multiplicative inverse; it never panics. -/
def checked_inv {F : Type} [Field F] [DecidableEq F] (x : F) : Option F :=
  if x = 0 then none else some x⁻¹

/-- The factorization result record, from `struct SquareFreeFactorization`
(`src/src/factorization.rs` lines 88–92). -/
structure SquareFreeFactorization (F : Type) where
  leading_coeff : F
  factors : List (List F × ℕ)
deriving DecidableEq

/-- The largest value of a 64-bit `usize`, at which `NonZeroUsize::saturating_add`
saturates. -/
def usize_max : ℕ := 2 ^ 64 - 1

/-- `j.saturating_add(1)` on `NonZeroUsize`: adds one, collapsing to the
maximum representable value instead of wrapping. -/
def sat_succ (j : ℕ) : ℕ := min (j + 1) usize_max

/-- The `while !r.is_one()` loop of `Polynomial::square_free_factorization`
(`src/src/factorization.rs` lines 113–122), with explicit fuel standing for
the number of iterations the diverging-free execution may take; `none` means
the loop did not finish within the given fuel.  Returns the accumulated
factor list together with the final `f` and `j`. -/
def yun_loop {F : Type} [Field F] [DecidableEq F] :
    ℕ → List F → List F → ℕ → List (List F × ℕ) →
      Option (List (List F × ℕ) × List F × ℕ)
  | 0, r, f, j, acc => if is_one r then some (acc, f, j) else none
  | fuel + 1, r, f, j, acc =>
    if is_one r then some (acc, f, j)
    else
      let g := poly_gcd r f
      let s := (div_rem f g).1
      let acc' := if is_one s then acc else acc ++ [(s, j)]
      yun_loop fuel (div_rem r g).1 g (sat_succ j) acc'

/-- `Polynomial::square_free_factorization` (`src/src/factorization.rs` lines
96–130): Yun's algorithm.  The zero polynomial returns `{leading_coeff: 0,
factors: []}`; otherwise the input is made monic by the inverse of its
leading coefficient (the `checked_inv(..).unwrap()` of line 108 — `none`
models the panic there), the loop runs, and a final non-one `f` is emitted
with the final multiplicity.  `fuel` bounds the loop iterations; `none`
means the call did not return within the fuel. -/
def square_free_factorization {F : Type} [Field F] [DecidableEq F]
    (fuel : ℕ) (p : List F) : Option (SquareFreeFactorization F) :=
  if is_zero p then some ⟨0, []⟩
  else
    (checked_inv (leading_coefficient_cloned p)).bind fun inv =>
      let lc := leading_coefficient_cloned p
      let u := scalar_mul inv p
      let r := poly_gcd u (derivative u)
      let f := (div_rem u r).1
      (yun_loop fuel r f 1 []).map fun afj =>
        ⟨lc, if is_one afj.2.1 then afj.1 else afj.1 ++ [(afj.2.1, afj.2.2)]⟩

/-- `integer_divisors` (`src/src/factorization.rs` lines 35–51) at the natural
numbers: starts from `[1, x]` and, for each `div` in `2 ..= sqrt x` dividing
`x`, pushes the cofactor `x / div` (when distinct from `div`) and then `div`
itself. -/
def integer_divisors (x : ℕ) : List ℕ :=
  [1, x] ++ (List.range' 2 (Nat.sqrt x - 1)).flatMap fun d =>
    if x % d = 0 then (if x / d ≠ d then [x / d] else []) ++ [d] else []

/-- `CoefficientDomain::gcd` for `BigRational` (`src/src/traits.rs` lines
150–156): panics (modelled as `none`) when both arguments are zero, and
otherwise returns one. -/
def rat_gcd (a b : ℚ) : Option ℚ :=
  if a = 0 ∧ b = 0 then none else some 1

/-- `CommutativeRing::invert` for `BigInt` (`src/src/traits.rs` lines 79–81)
and for `i64` (lines 105–107): both return the negation `-x` of the wrapped
value (for the units `±1` the `i64` negation is exact, so one integer model
covers both). -/
def invert_int (x : ℤ) : ℤ := -x

/-- `Polynomial::<BigInt>::kronecker` (`src/src/factorization.rs` lines
137–146): when the degree is absent (zero polynomial) or at most 1, the
result wraps the input as the single factor; any higher degree hits
`todo!()`, i.e. panics (modelled as `none`). -/
def kronecker (p : List ℤ) : Option (List (List ℤ)) :=
  match degree p with
  | none => some [p]
  | some d => if d ≤ 1 then some [p] else none

/-- Interpretation of a coefficient list as an abstract polynomial, used to
state and prove the algebraic properties of the embedded operations. -/
noncomputable def toPoly {F : Type} [Semiring F] (l : List F) : Polynomial F :=
  l.foldr (fun c acc => Polynomial.C c + Polynomial.X * acc) 0

/-- The product `∏ factor_i ^ multiplicity_i` of a factor list, interpreted as
an abstract polynomial. -/
noncomputable def factors_product {F : Type} [Semiring F] (fs : List (List F × ℕ)) : Polynomial F :=
  (fs.map fun sm => toPoly sm.1 ^ sm.2).prod

section TrimLemmas

variable {R : Type} [Zero R] [DecidableEq R]

theorem getLastD_irrel {α : Type} (l : List α) (h : l ≠ []) (d₁ d₂ : α) :
    l.getLastD d₁ = l.getLastD d₂ := by
  cases l with
  | nil => exact absurd rfl h
  | cons a t => rw [List.getLastD_cons, List.getLastD_cons]

theorem trim_last_ne_zero : ∀ l : List R, trim l ≠ [] → (trim l).getLastD 0 ≠ 0 := by
  intro l
  induction l with
  | nil => intro h; exact absurd rfl h
  | cons c l ih =>
    intro h
    rw [trim] at h ⊢
    by_cases htl : trim l = []
    · rw [if_pos htl] at h ⊢
      by_cases hc : c = 0
      · rw [if_pos hc] at h; exact absurd rfl h
      · rw [if_neg hc]; simpa using hc
    · rw [if_neg htl] at h ⊢
      have := ih htl
      cases htl' : trim l with
      | nil => exact absurd htl' htl
      | cons t ts =>
        rw [htl'] at this
        rw [List.getLastD_cons, List.getLastD_cons]
        rwa [List.getLastD_cons] at this

end TrimLemmas

section Bridge

variable {F : Type} [Field F] [DecidableEq F]

theorem toPoly_nil : toPoly ([] : List F) = 0 := rfl

theorem toPoly_cons (c : F) (l : List F) :
    toPoly (c :: l) = Polynomial.C c + Polynomial.X * toPoly l := rfl

theorem trim_eq_nil_iff : ∀ l : List F, trim l = [] ↔ ∀ c ∈ l, c = 0 := by
  intro l
  induction l with
  | nil => simp [trim]
  | cons c l ih =>
    rw [trim]
    by_cases htl : trim l = []
    · rw [if_pos htl]
      by_cases hc : c = 0
      · rw [if_pos hc]
        constructor
        · intro _ x hx
          rcases List.mem_cons.mp hx with rfl | hx'
          · exact hc
          · exact ih.mp htl x hx'
        · intro _
          rfl
      · rw [if_neg hc]
        simp only [List.cons_ne_nil, false_iff]
        intro hall
        exact hc (hall c (List.mem_cons_self c l))
    · rw [if_neg htl]
      simp only [List.cons_ne_nil, false_iff]
      intro hall
      exact htl (ih.mpr fun x hx => hall x (List.mem_cons_of_mem c hx))

theorem toPoly_eq_zero_of_forall_zero : ∀ l : List F, (∀ c ∈ l, c = 0) → toPoly l = 0 := by
  intro l
  induction l with
  | nil => intro _; rfl
  | cons c l ih =>
    intro h
    rw [toPoly_cons, h c (List.mem_cons_self c l), ih fun x hx => h x (List.mem_cons_of_mem c hx)]
    simp

theorem toPoly_trim : ∀ l : List F, toPoly (trim l) = toPoly l := by
  intro l
  induction l with
  | nil => rfl
  | cons c l ih =>
    rw [trim]
    by_cases htl : trim l = []
    · rw [if_pos htl]
      have hl0 : toPoly l = 0 := toPoly_eq_zero_of_forall_zero l ((trim_eq_nil_iff l).mp htl)
      by_cases hc : c = 0
      · rw [if_pos hc, toPoly_nil, toPoly_cons, hl0, hc]
        simp
      · rw [if_neg hc, toPoly_cons, toPoly_cons, hl0, toPoly_nil]
    · rw [if_neg htl, toPoly_cons, toPoly_cons, ih]

theorem toPoly_coeff : ∀ (l : List F) (i : ℕ), (toPoly l).coeff i = l.getD i 0 := by
  intro l
  induction l with
  | nil => intro i; simp [toPoly_nil]
  | cons c l ih =>
    intro i
    rw [toPoly_cons]
    cases i with
    | zero =>
      rw [Polynomial.coeff_add, Polynomial.coeff_C_zero, mul_comm,
        Polynomial.coeff_mul_X_zero]
      simp
    | succ i =>
      rw [Polynomial.coeff_add, Polynomial.coeff_C, Polynomial.coeff_X_mul, ih]
      simp

theorem toPoly_eq_zero_iff (l : List F) : toPoly l = 0 ↔ trim l = [] := by
  constructor
  · intro h
    rw [trim_eq_nil_iff]
    intro c hc
    obtain ⟨i, hi, hget⟩ := List.getElem_of_mem hc
    have := toPoly_coeff l i
    rw [h, Polynomial.coeff_zero] at this
    rw [List.getD_eq_getElem l 0 hi] at this
    rw [← hget, this]
  · intro h
    rw [← toPoly_trim, h, toPoly_nil]

theorem toPoly_ne_zero_iff (l : List F) : toPoly l ≠ 0 ↔ trim l ≠ [] :=
  not_congr (toPoly_eq_zero_iff l)

theorem toPoly_add_aux : ∀ a b : List F, toPoly (add_aux a b) = toPoly a + toPoly b := by
  intro a
  induction a with
  | nil => intro b; simp only [add_aux, toPoly_nil, zero_add]
  | cons x xs ih =>
    intro b
    cases b with
    | nil => simp only [add_aux, toPoly_nil, add_zero]
    | cons y ys =>
      simp only [add_aux, toPoly_cons, ih, map_add]
      ring

theorem toPoly_poly_add (a b : List F) : toPoly (poly_add a b) = toPoly a + toPoly b := by
  rw [poly_add, toPoly_trim, toPoly_add_aux]

theorem toPoly_map_mul (c : F) : ∀ l : List F,
    toPoly (l.map fun a => c * a) = Polynomial.C c * toPoly l := by
  intro l
  induction l with
  | nil => simp [toPoly_nil]
  | cons x xs ih =>
    rw [List.map_cons, toPoly_cons, toPoly_cons, ih, map_mul]
    ring

theorem toPoly_scalar_mul (c : F) (l : List F) :
    toPoly (scalar_mul c l) = Polynomial.C c * toPoly l := by
  rw [scalar_mul, toPoly_trim, toPoly_map_mul]

theorem toPoly_poly_neg : ∀ l : List F, toPoly (poly_neg l) = -toPoly l := by
  intro l
  rw [poly_neg, toPoly_trim]
  induction l with
  | nil => simp [toPoly_nil]
  | cons x xs ih =>
    rw [List.map_cons, toPoly_cons, toPoly_cons, ih, map_neg]
    ring

theorem toPoly_poly_sub (a b : List F) : toPoly (poly_sub a b) = toPoly a - toPoly b := by
  rw [poly_sub, toPoly_poly_add, toPoly_poly_neg, sub_eq_add_neg]

theorem toPoly_replicate_append (k : ℕ) (l : List F) :
    toPoly (List.replicate k 0 ++ l) = Polynomial.X ^ k * toPoly l := by
  induction k with
  | zero => simp
  | succ k ih =>
    rw [List.replicate_succ, List.cons_append, toPoly_cons, ih]
    rw [map_zero]
    ring

theorem toPoly_mul_shift (c : F) (k : ℕ) (l : List F) :
    toPoly (mul_shift c k l) = Polynomial.C c * Polynomial.X ^ k * toPoly l := by
  rw [mul_shift, toPoly_trim, toPoly_replicate_append, toPoly_map_mul]
  ring

theorem toPoly_one_of_is_one (l : List F) (h : is_one l) : toPoly l = 1 := by
  have h' : trim l = [1] := h
  rw [← toPoly_trim, h', toPoly_cons, toPoly_nil, Polynomial.C_1]
  simp

theorem trim_idem' : ∀ l : List F, trim (trim l) = trim l := by
  intro l
  induction l with
  | nil => rfl
  | cons c l ih =>
    rw [trim]
    by_cases htl : trim l = []
    · rw [if_pos htl]
      by_cases hc : c = 0
      · rw [if_pos hc]
        rfl
      · rw [if_neg hc]
        simp [trim, hc]
    · rw [if_neg htl]
      rw [trim, ih, if_neg htl]

theorem degree_lead_of_trimmed : ∀ l : List F, trim l = l → l ≠ [] →
    (toPoly l).degree = ((l.length - 1 : ℕ) : WithBot ℕ) ∧
      (toPoly l).leadingCoeff = l.getLastD 0 := by
  intro l
  induction l with
  | nil => intro _ h; exact absurd rfl h
  | cons c t ih =>
    intro htrim _
    rw [trim] at htrim
    by_cases htl : trim t = []
    · rw [if_pos htl] at htrim
      by_cases hc : c = 0
      · rw [if_pos hc] at htrim
        exact absurd htrim.symm (List.cons_ne_nil c t)
      · rw [if_neg hc] at htrim
        injection htrim with _ ht
        subst ht
        constructor
        · rw [toPoly_cons, toPoly_nil, mul_zero, add_zero, Polynomial.degree_C hc]
          rfl
        · rw [toPoly_cons, toPoly_nil, mul_zero, add_zero, Polynomial.leadingCoeff_C]
          rfl
    · rw [if_neg htl] at htrim
      injection htrim with _ htt
      have htne : t ≠ [] := fun h => htl (by rw [htt, h])
      obtain ⟨ihd, ihl⟩ := ih htt htne
      have htp : toPoly t ≠ 0 := (toPoly_ne_zero_iff t).mpr (by rw [htt]; exact htne)
      have hlen : 1 ≤ t.length := List.length_pos.mpr htne
      have hdeg : (Polynomial.X * toPoly t).degree = (t.length : WithBot ℕ) := by
        rw [Polynomial.degree_mul, Polynomial.degree_X, ihd]
        rw [← Nat.cast_one, ← Nat.cast_add]
        congr 1
        omega
      have hC : (Polynomial.C c).degree < (Polynomial.X * toPoly t).degree := by
        apply lt_of_le_of_lt Polynomial.degree_C_le
        rw [hdeg]
        exact_mod_cast hlen
      constructor
      · rw [toPoly_cons, Polynomial.degree_add_eq_right_of_degree_lt hC, hdeg]
        simp
      · rw [toPoly_cons, Polynomial.leadingCoeff_add_of_degree_lt hC,
          Polynomial.leadingCoeff_mul, Polynomial.leadingCoeff_X, one_mul, ihl,
          List.getLastD_cons]
        exact getLastD_irrel t htne 0 c

theorem toPoly_degree (l : List F) (h : trim l ≠ []) :
    (toPoly l).degree = (((trim l).length - 1 : ℕ) : WithBot ℕ) := by
  rw [← toPoly_trim]
  exact (degree_lead_of_trimmed (trim l) (trim_idem' l) h).1

theorem toPoly_leadingCoeff (l : List F) :
    (toPoly l).leadingCoeff = (trim l).getLastD 0 := by
  by_cases h : trim l = []
  · rw [← toPoly_trim, h, toPoly_nil, Polynomial.leadingCoeff_zero]
    rfl
  · rw [← toPoly_trim]
    exact (degree_lead_of_trimmed (trim l) (trim_idem' l) h).2

theorem trim_length_lt_of_degree_lt (a b : List F) (hb : trim b ≠ [])
    (h : (toPoly a).degree < (toPoly b).degree) : (trim a).length < (trim b).length := by
  by_cases ha : trim a = []
  · rw [ha]
    simpa using List.length_pos.mpr hb
  · rw [toPoly_degree a ha, toPoly_degree b hb] at h
    have hlt : (trim a).length - 1 < (trim b).length - 1 := by exact_mod_cast h
    have h1 : 1 ≤ (trim a).length := List.length_pos.mpr ha
    have h2 : 1 ≤ (trim b).length := List.length_pos.mpr hb
    omega

theorem div_rem_aux_spec :
    ∀ (fuel : ℕ) (a b : List F), trim b ≠ [] → (trim a).length ≤ fuel →
      toPoly (div_rem_aux fuel a b).1 * toPoly b + toPoly (div_rem_aux fuel a b).2 = toPoly a ∧
      (trim (div_rem_aux fuel a b).2).length < (trim b).length := by
  intro fuel
  induction fuel with
  | zero =>
    intro a b hb hfa
    have ha : trim a = [] := List.eq_nil_of_length_eq_zero (Nat.le_zero.mp hfa)
    simp only [div_rem_aux]
    constructor
    · rw [toPoly_nil, zero_mul, zero_add, toPoly_trim]
    · rw [trim_idem', ha]
      simpa using List.length_pos.mpr hb
  | succ fuel ih =>
    intro a b hb hfa
    simp only [div_rem_aux]
    rw [if_neg hb]
    by_cases hlen : (trim a).length < (trim b).length
    · rw [if_pos hlen]
      constructor
      · rw [toPoly_nil, zero_mul, zero_add, toPoly_trim]
      · rw [trim_idem']
        exact hlen
    · rw [if_neg hlen]
      push_neg at hlen
      have hbl : 1 ≤ (trim b).length := List.length_pos.mpr hb
      have ha : trim a ≠ [] := by
        intro h
        rw [h] at hlen
        simp only [List.length_nil, Nat.le_zero, List.length_eq_zero] at hlen
        exact hb hlen
      have hal : 1 ≤ (trim a).length := List.length_pos.mpr ha
      have hla := trim_last_ne_zero a ha
      have hlb := trim_last_ne_zero b hb
      have hc0 : (trim a).getLastD 0 / (trim b).getLastD 0 ≠ 0 := div_ne_zero hla hlb
      have haP : toPoly a ≠ 0 := (toPoly_ne_zero_iff a).mpr ha
      have hbP : toPoly b ≠ 0 := (toPoly_ne_zero_iff b).mpr hb
      set c := (trim a).getLastD 0 / (trim b).getLastD 0 with hc_def
      set k := (trim a).length - (trim b).length with hk_def
      set a2 := poly_sub (trim a) (mul_shift c k (trim b)) with ha2_def
      have ha2P : toPoly a2 = toPoly a - Polynomial.C c * Polynomial.X ^ k * toPoly b := by
        rw [ha2_def, toPoly_poly_sub, toPoly_mul_shift, toPoly_trim, toPoly_trim]
      have hdegQ : (Polynomial.C c * Polynomial.X ^ k * toPoly b).degree =
          (((trim a).length - 1 : ℕ) : WithBot ℕ) := by
        rw [Polynomial.degree_mul, Polynomial.degree_mul, Polynomial.degree_C hc0,
          Polynomial.degree_X_pow, toPoly_degree b hb, zero_add, ← Nat.cast_add]
        congr 1
        omega
      have hleadQ : (Polynomial.C c * Polynomial.X ^ k * toPoly b).leadingCoeff =
          (trim a).getLastD 0 := by
        rw [Polynomial.leadingCoeff_mul, Polynomial.leadingCoeff_mul,
          Polynomial.leadingCoeff_C, Polynomial.leadingCoeff_X_pow, mul_one,
          toPoly_leadingCoeff, hc_def]
        exact div_mul_cancel₀ _ hlb
      have hsub : (toPoly a2).degree < (toPoly a).degree := by
        rw [ha2P]
        exact Polynomial.degree_sub_lt ((toPoly_degree a ha).trans hdegQ.symm) haP
          ((toPoly_leadingCoeff a).trans hleadQ.symm)
      have hdec : (trim a2).length < (trim a).length :=
        trim_length_lt_of_degree_lt a2 a ha hsub
      have hfa2 : (trim a2).length ≤ fuel := Nat.lt_succ_iff.mp (lt_of_lt_of_le hdec hfa)
      obtain ⟨ih1, ih2⟩ := ih a2 b hb hfa2
      constructor
      · rw [toPoly_poly_add, toPoly_mul_shift]
        have h1 : toPoly ([1] : List F) = 1 := by
          rw [toPoly_cons, toPoly_nil]
          simp
        rw [h1, mul_one]
        rw [ha2P] at ih1
        linear_combination ih1
      · exact ih2

theorem div_rem_spec (a b : List F) (hb : trim b ≠ []) :
    toPoly (div_rem a b).1 * toPoly b + toPoly (div_rem a b).2 = toPoly a ∧
      (trim (div_rem a b).2).length < (trim b).length :=
  div_rem_aux_spec ((trim a).length + 1) a b hb (Nat.le_succ _)

theorem div_rem_exact (a b : List F) (hb : trim b ≠ []) (hdvd : toPoly b ∣ toPoly a) :
    toPoly (div_rem a b).1 * toPoly b = toPoly a ∧ toPoly (div_rem a b).2 = 0 := by
  obtain ⟨heq, hlt⟩ := div_rem_spec a b hb
  have hrdvd : toPoly b ∣ toPoly (div_rem a b).2 := by
    have hr : toPoly (div_rem a b).2 = toPoly a - toPoly (div_rem a b).1 * toPoly b := by
      linear_combination heq
    rw [hr]
    exact dvd_sub hdvd (dvd_mul_left _ _)
  by_cases hr0 : toPoly (div_rem a b).2 = 0
  · rw [hr0, add_zero] at heq
    exact ⟨heq, hr0⟩
  · exfalso
    have hdeg := Polynomial.degree_le_of_dvd hrdvd hr0
    have hrne : trim (div_rem a b).2 ≠ [] := (toPoly_ne_zero_iff _).mp hr0
    rw [toPoly_degree b hb, toPoly_degree _ hrne] at hdeg
    have hle : (trim b).length - 1 ≤ (trim (div_rem a b).2).length - 1 := by exact_mod_cast hdeg
    have h1 : 1 ≤ (trim b).length := List.length_pos.mpr hb
    have h2 : 1 ≤ (trim (div_rem a b).2).length := List.length_pos.mpr hrne
    omega

theorem poly_gcd_aux_irrel :
    ∀ (n fuel₁ fuel₂ : ℕ) (a b : List F), (trim b).length ≤ n →
      (trim b).length < fuel₁ → (trim b).length < fuel₂ →
      poly_gcd_aux fuel₁ a b = poly_gcd_aux fuel₂ a b := by
  intro n
  induction n with
  | zero =>
    intro fuel₁ fuel₂ a b hn h1 h2
    have hb : trim b = [] := List.length_eq_zero.mp (Nat.le_zero.mp hn)
    cases fuel₁ with
    | zero => omega
    | succ f₁ =>
      cases fuel₂ with
      | zero => omega
      | succ f₂ =>
        simp only [poly_gcd_aux]
        rw [if_pos hb, if_pos hb]
  | succ n ihn =>
    intro fuel₁ fuel₂ a b hn h1 h2
    cases fuel₁ with
    | zero => omega
    | succ f₁ =>
      cases fuel₂ with
      | zero => omega
      | succ f₂ =>
        simp only [poly_gcd_aux]
        by_cases hb : trim b = []
        · rw [if_pos hb, if_pos hb]
        · rw [if_neg hb, if_neg hb]
          have hlt := (div_rem_spec a b hb).2
          exact ihn f₁ f₂ b (div_rem a b).2 (by omega) (by omega) (by omega)

theorem poly_gcd_eq (a b : List F) :
    poly_gcd a b = if trim b = [] then a else poly_gcd b (div_rem a b).2 := by
  unfold poly_gcd
  by_cases hb : trim b = []
  · rw [if_pos hb]
    simp only [poly_gcd_aux]
    rw [if_pos hb]
  · rw [if_neg hb]
    simp only [poly_gcd_aux]
    rw [if_neg hb]
    have hlt := (div_rem_spec a b hb).2
    have hbl : 1 ≤ (trim b).length := List.length_pos.mpr hb
    exact poly_gcd_aux_irrel (trim (div_rem a b).2).length _ _ b (div_rem a b).2
      le_rfl (by omega) (Nat.lt_succ_self _)

theorem poly_gcd_dvd :
    ∀ (n : ℕ) (a b : List F), (trim b).length ≤ n →
      toPoly (poly_gcd a b) ∣ toPoly a ∧ toPoly (poly_gcd a b) ∣ toPoly b := by
  intro n
  induction n with
  | zero =>
    intro a b hn
    have hb : trim b = [] := List.length_eq_zero.mp (Nat.le_zero.mp hn)
    rw [poly_gcd_eq, if_pos hb]
    refine ⟨dvd_rfl, ?_⟩
    rw [(toPoly_eq_zero_iff b).mpr hb]
    exact dvd_zero _
  | succ n ihn =>
    intro a b hn
    by_cases hb : trim b = []
    · rw [poly_gcd_eq, if_pos hb]
      refine ⟨dvd_rfl, ?_⟩
      rw [(toPoly_eq_zero_iff b).mpr hb]
      exact dvd_zero _
    · rw [poly_gcd_eq, if_neg hb]
      have hlt := (div_rem_spec a b hb).2
      obtain ⟨hgb, hgr⟩ := ihn b (div_rem a b).2 (by omega)
      refine ⟨?_, hgb⟩
      have heq := (div_rem_spec a b hb).1
      rw [← heq]
      exact dvd_add (hgb.mul_left _) hgr

theorem poly_gcd_ne_zero :
    ∀ (n : ℕ) (a b : List F), (trim b).length ≤ n →
      (toPoly a ≠ 0 ∨ toPoly b ≠ 0) → toPoly (poly_gcd a b) ≠ 0 := by
  intro n
  induction n with
  | zero =>
    intro a b hn hab
    have hb : trim b = [] := List.length_eq_zero.mp (Nat.le_zero.mp hn)
    rw [poly_gcd_eq, if_pos hb]
    rcases hab with h | h
    · exact h
    · exact absurd ((toPoly_eq_zero_iff b).mpr hb) h
  | succ n ihn =>
    intro a b hn hab
    by_cases hb : trim b = []
    · rw [poly_gcd_eq, if_pos hb]
      rcases hab with h | h
      · exact h
      · exact absurd ((toPoly_eq_zero_iff b).mpr hb) h
    · rw [poly_gcd_eq, if_neg hb]
      have hlt := (div_rem_spec a b hb).2
      exact ihn b (div_rem a b).2 (by omega) (Or.inl ((toPoly_ne_zero_iff b).mpr hb))

end Bridge

section YunLoop

variable {F : Type} [Field F] [DecidableEq F]

theorem factors_product_nil : factors_product ([] : List (List F × ℕ)) = 1 := rfl

theorem factors_product_append_single (acc : List (List F × ℕ)) (s : List F) (j : ℕ) :
    factors_product (acc ++ [(s, j)]) = factors_product acc * toPoly s ^ j := by
  unfold factors_product
  rw [List.map_append, List.prod_append]
  simp

theorem sat_succ_eq (j : ℕ) (h : j + 1 ≤ usize_max) : sat_succ j = j + 1 :=
  min_eq_left h

theorem yun_loop_invariant (U : Polynomial F) :
    ∀ (fuel : ℕ) (r f : List F) (j : ℕ) (acc acc' : List (List F × ℕ)) (f' : List F) (j' : ℕ),
      yun_loop fuel r f j acc = some (acc', f', j') →
      j + fuel ≤ usize_max →
      toPoly r ≠ 0 → toPoly f ≠ 0 →
      U = factors_product acc * toPoly f ^ j * toPoly r →
      U = factors_product acc' * toPoly f' ^ j' := by
  intro fuel
  induction fuel with
  | zero =>
    intro r f j acc acc' f' j' hloop hmax hr hf hU
    simp only [yun_loop] at hloop
    by_cases hone : is_one r
    · rw [if_pos hone] at hloop
      simp only [Option.some.injEq, Prod.mk.injEq] at hloop
      obtain ⟨rfl, rfl, rfl⟩ := hloop
      rw [toPoly_one_of_is_one r hone, mul_one] at hU
      exact hU
    · rw [if_neg hone] at hloop
      exact absurd hloop (by simp)
  | succ fuel ih =>
    intro r f j acc acc' f' j' hloop hmax hr hf hU
    simp only [yun_loop] at hloop
    by_cases hone : is_one r
    · rw [if_pos hone] at hloop
      simp only [Option.some.injEq, Prod.mk.injEq] at hloop
      obtain ⟨rfl, rfl, rfl⟩ := hloop
      rw [toPoly_one_of_is_one r hone, mul_one] at hU
      exact hU
    · rw [if_neg hone] at hloop
      set g := poly_gcd r f with hg_def
      set s := (div_rem f g).1 with hs_def
      set r2 := (div_rem r g).1 with hr2_def
      set acc2 := if is_one s then acc else acc ++ [(s, j)] with hacc2_def
      have hgP : toPoly g ≠ 0 := poly_gcd_ne_zero (trim f).length r f le_rfl (Or.inl hr)
      have hgne : trim g ≠ [] := (toPoly_ne_zero_iff g).mp hgP
      obtain ⟨hgr, hgf⟩ := poly_gcd_dvd (trim f).length r f le_rfl
      obtain ⟨hsP, -⟩ := div_rem_exact f g hgne hgf
      obtain ⟨hr2P, -⟩ := div_rem_exact r g hgne hgr
      have hr20 : toPoly r2 ≠ 0 := by
        intro h0
        rw [h0, zero_mul] at hr2P
        exact hr hr2P.symm
      have hsz : sat_succ j = j + 1 := sat_succ_eq j (by omega)
      have hU2 : U = factors_product acc2 * toPoly g ^ (j + 1) * toPoly r2 := by
        rw [hacc2_def]
        by_cases hs1 : is_one s
        · rw [if_pos hs1]
          have hsone : toPoly s = 1 := toPoly_one_of_is_one s hs1
          rw [hsone, one_mul] at hsP
          rw [hU, ← hsP, ← hr2P]
          ring
        · rw [if_neg hs1, factors_product_append_single, hU, ← hsP, ← hr2P]
          ring
      have := ih r2 g (sat_succ j) acc2 acc' f' j' hloop (by rw [hsz]; omega) hr20 hgP
        (by rw [hsz]; exact hU2)
      exact this

theorem yun_loop_entries :
    ∀ (fuel : ℕ) (r f : List F) (j : ℕ) (acc acc' : List (List F × ℕ)) (f' : List F) (j' : ℕ),
      yun_loop fuel r f j acc = some (acc', f', j') →
      toPoly r ≠ 0 → toPoly f ≠ 0 →
      (∀ sm ∈ acc, toPoly sm.1 ≠ 0) →
      toPoly f' ≠ 0 ∧ ∀ sm ∈ acc', toPoly sm.1 ≠ 0 := by
  intro fuel
  induction fuel with
  | zero =>
    intro r f j acc acc' f' j' hloop hr hf hacc
    simp only [yun_loop] at hloop
    by_cases hone : is_one r
    · rw [if_pos hone] at hloop
      simp only [Option.some.injEq, Prod.mk.injEq] at hloop
      obtain ⟨rfl, rfl, rfl⟩ := hloop
      exact ⟨hf, hacc⟩
    · rw [if_neg hone] at hloop
      exact absurd hloop (by simp)
  | succ fuel ih =>
    intro r f j acc acc' f' j' hloop hr hf hacc
    simp only [yun_loop] at hloop
    by_cases hone : is_one r
    · rw [if_pos hone] at hloop
      simp only [Option.some.injEq, Prod.mk.injEq] at hloop
      obtain ⟨rfl, rfl, rfl⟩ := hloop
      exact ⟨hf, hacc⟩
    · rw [if_neg hone] at hloop
      set g := poly_gcd r f with hg_def
      set s := (div_rem f g).1 with hs_def
      set r2 := (div_rem r g).1 with hr2_def
      set acc2 := if is_one s then acc else acc ++ [(s, j)] with hacc2_def
      have hgP : toPoly g ≠ 0 := poly_gcd_ne_zero (trim f).length r f le_rfl (Or.inl hr)
      have hgne : trim g ≠ [] := (toPoly_ne_zero_iff g).mp hgP
      obtain ⟨hgr, hgf⟩ := poly_gcd_dvd (trim f).length r f le_rfl
      obtain ⟨hsP, -⟩ := div_rem_exact f g hgne hgf
      obtain ⟨hr2P, -⟩ := div_rem_exact r g hgne hgr
      have hs0 : toPoly s ≠ 0 := by
        intro h0
        rw [h0, zero_mul] at hsP
        exact hf hsP.symm
      have hr20 : toPoly r2 ≠ 0 := by
        intro h0
        rw [h0, zero_mul] at hr2P
        exact hr hr2P.symm
      have hacc2 : ∀ sm ∈ acc2, toPoly sm.1 ≠ 0 := by
        rw [hacc2_def]
        by_cases hs1 : is_one s
        · rw [if_pos hs1]
          exact hacc
        · rw [if_neg hs1]
          intro sm hsm
          rcases List.mem_append.mp hsm with hsm | hsm
          · exact hacc sm hsm
          · rw [List.mem_singleton] at hsm
            rw [hsm]
            exact hs0
      exact ih r2 g (sat_succ j) acc2 acc' f' j' hloop hr20 hgP hacc2

theorem yun_loop_mults :
    ∀ (fuel : ℕ) (r f : List F) (j : ℕ) (acc acc' : List (List F × ℕ)) (f' : List F) (j' : ℕ),
      yun_loop fuel r f j acc = some (acc', f', j') →
      j + fuel ≤ usize_max → 0 < j →
      List.Pairwise (· < ·) (acc.map Prod.snd) →
      (∀ m ∈ acc.map Prod.snd, 0 < m ∧ m < j) →
      List.Pairwise (· < ·) (acc'.map Prod.snd) ∧
        (∀ m ∈ acc'.map Prod.snd, 0 < m ∧ m < j') ∧ 0 < j' := by
  intro fuel
  induction fuel with
  | zero =>
    intro r f j acc acc' f' j' hloop hmax hj hpw hbd
    simp only [yun_loop] at hloop
    by_cases hone : is_one r
    · rw [if_pos hone] at hloop
      simp only [Option.some.injEq, Prod.mk.injEq] at hloop
      obtain ⟨rfl, rfl, rfl⟩ := hloop
      exact ⟨hpw, hbd, hj⟩
    · rw [if_neg hone] at hloop
      exact absurd hloop (by simp)
  | succ fuel ih =>
    intro r f j acc acc' f' j' hloop hmax hj hpw hbd
    simp only [yun_loop] at hloop
    by_cases hone : is_one r
    · rw [if_pos hone] at hloop
      simp only [Option.some.injEq, Prod.mk.injEq] at hloop
      obtain ⟨rfl, rfl, rfl⟩ := hloop
      exact ⟨hpw, hbd, hj⟩
    · rw [if_neg hone] at hloop
      set s := (div_rem f (poly_gcd r f)).1 with hs_def
      set acc2 := if is_one s then acc else acc ++ [(s, j)] with hacc2_def
      have hsz : sat_succ j = j + 1 := sat_succ_eq j (by omega)
      have hpw2 : List.Pairwise (· < ·) (acc2.map Prod.snd) := by
        rw [hacc2_def]
        by_cases hs1 : is_one s
        · rw [if_pos hs1]
          exact hpw
        · rw [if_neg hs1, List.map_append, List.pairwise_append]
          refine ⟨hpw, by simp, ?_⟩
          intro m hm _ hb
          simp only [List.map_cons, List.map_nil, List.mem_singleton] at hb
          rw [hb]
          exact (hbd m hm).2
      have hbd2 : ∀ m ∈ acc2.map Prod.snd, 0 < m ∧ m < sat_succ j := by
        rw [hacc2_def, hsz]
        by_cases hs1 : is_one s
        · rw [if_pos hs1]
          intro m hm
          have := hbd m hm
          omega
        · rw [if_neg hs1, List.map_append]
          intro m hm
          rcases List.mem_append.mp hm with hm | hm
          · have := hbd m hm
            omega
          · simp only [List.map_cons, List.map_nil, List.mem_singleton] at hm
            omega
      have := ih _ _ (sat_succ j) acc2 acc' f' j' hloop (by rw [hsz]; omega)
        (by rw [hsz]; omega) hpw2 hbd2
      exact this

theorem checked_inv_some (x : F) (hx : x ≠ 0) : checked_inv x = some x⁻¹ := by
  unfold checked_inv
  rw [if_neg hx]

theorem sff_init_ne_zero (p : List F) (hp : ¬is_zero p) :
    toPoly (poly_gcd (scalar_mul (leading_coefficient_cloned p)⁻¹ p)
      (derivative (scalar_mul (leading_coefficient_cloned p)⁻¹ p))) ≠ 0 ∧
    toPoly ((div_rem (scalar_mul (leading_coefficient_cloned p)⁻¹ p)
      (poly_gcd (scalar_mul (leading_coefficient_cloned p)⁻¹ p)
        (derivative (scalar_mul (leading_coefficient_cloned p)⁻¹ p)))).1) ≠ 0 ∧
    toPoly ((div_rem (scalar_mul (leading_coefficient_cloned p)⁻¹ p)
      (poly_gcd (scalar_mul (leading_coefficient_cloned p)⁻¹ p)
        (derivative (scalar_mul (leading_coefficient_cloned p)⁻¹ p)))).1) *
      toPoly (poly_gcd (scalar_mul (leading_coefficient_cloned p)⁻¹ p)
        (derivative (scalar_mul (leading_coefficient_cloned p)⁻¹ p))) =
      toPoly (scalar_mul (leading_coefficient_cloned p)⁻¹ p) := by
  have hne : trim p ≠ [] := hp
  have hlast : leading_coefficient_cloned p ≠ 0 := trim_last_ne_zero p hne
  have hpP : toPoly p ≠ 0 := (toPoly_ne_zero_iff p).mpr hne
  set lc := leading_coefficient_cloned p with hlc_def
  set u := scalar_mul lc⁻¹ p with hu_def
  have huP : toPoly u = Polynomial.C lc⁻¹ * toPoly p := toPoly_scalar_mul _ _
  have hu0 : toPoly u ≠ 0 := by
    rw [huP]
    exact mul_ne_zero (Polynomial.C_ne_zero.mpr (inv_ne_zero hlast)) hpP
  set r0 := poly_gcd u (derivative u) with hr0_def
  have hr0P : toPoly r0 ≠ 0 :=
    poly_gcd_ne_zero (trim (derivative u)).length u (derivative u) le_rfl (Or.inl hu0)
  have hr0ne : trim r0 ≠ [] := (toPoly_ne_zero_iff r0).mp hr0P
  have hr0dvd : toPoly r0 ∣ toPoly u :=
    (poly_gcd_dvd (trim (derivative u)).length u (derivative u) le_rfl).1
  obtain ⟨hf0P, -⟩ := div_rem_exact u r0 hr0ne hr0dvd
  have hf00 : toPoly (div_rem u r0).1 ≠ 0 := by
    intro h0
    rw [h0, zero_mul] at hf0P
    exact hu0 hf0P.symm
  exact ⟨hr0P, hf00, hf0P⟩

theorem sff_shape {fuel : ℕ} {p : List F} {res : SquareFreeFactorization F}
    (hp : ¬is_zero p) (h : square_free_factorization fuel p = some res) :
    res.leading_coeff = leading_coefficient_cloned p ∧
    ∃ acc' f' j',
      yun_loop fuel
        (poly_gcd (scalar_mul (leading_coefficient_cloned p)⁻¹ p)
          (derivative (scalar_mul (leading_coefficient_cloned p)⁻¹ p)))
        ((div_rem (scalar_mul (leading_coefficient_cloned p)⁻¹ p)
          (poly_gcd (scalar_mul (leading_coefficient_cloned p)⁻¹ p)
            (derivative (scalar_mul (leading_coefficient_cloned p)⁻¹ p)))).1)
        1 [] = some (acc', f', j') ∧
      res.factors = (if is_one f' then acc' else acc' ++ [(f', j')]) := by
  unfold square_free_factorization at h
  rw [if_neg hp] at h
  have hne : trim p ≠ [] := hp
  have hlast := trim_last_ne_zero p hne
  rw [checked_inv_some (leading_coefficient_cloned p) hlast, Option.some_bind] at h
  rw [Option.map_eq_some'] at h
  obtain ⟨⟨acc', f', j'⟩, hy, hres⟩ := h
  refine ⟨?_, acc', f', j', hy, ?_⟩
  · rw [← hres]
  · rw [← hres]

end YunLoop

/-- C2: `square_free_factorization` on the zero polynomial returns the record
with zero leading coefficient and an empty factor list, for any fuel. -/
theorem sff_zero_case {F : Type} [Field F] [DecidableEq F] (fuel : ℕ) (p : List F)
    (h : is_zero p) : square_free_factorization fuel p = some ⟨0, []⟩ := by
  unfold square_free_factorization
  rw [if_pos h]

/-- Witness for C2 at the empty coefficient list over `ℚ`. -/
theorem sff_zero_case_witness :
    square_free_factorization 3 ([] : List ℚ) = some ⟨0, []⟩ :=
  sff_zero_case 3 [] (by decide)

/-- C5: checked inversion on the rationals is total (never panics), returns
`none` exactly on zero, and otherwise the multiplicative inverse; in
particular `2/3` inverts to `3/2`. -/
theorem checked_inv_rat_spec :
    (∀ q : ℚ, checked_inv q = none ↔ q = 0) ∧
    (∀ q : ℚ, q ≠ 0 → checked_inv q = some q⁻¹ ∧ q * q⁻¹ = 1) ∧
    checked_inv (2 / 3 : ℚ) = some (3 / 2) := by
  refine ⟨fun q => ?_, fun q hq => ?_, by with_unfolding_all decide⟩
  · unfold checked_inv
    split_ifs with h <;> simp [h]
  · unfold checked_inv
    rw [if_neg hq]
    exact ⟨rfl, mul_inv_cancel₀ hq⟩

/-- Witness for C5: the zero and `2/3` cases, through the theorem itself. -/
theorem checked_inv_rat_spec_witness :
    checked_inv (0 : ℚ) = none ∧ checked_inv (2 / 3 : ℚ) = some (3 / 2) ∧
      (2 / 3 : ℚ) * (2 / 3 : ℚ)⁻¹ = 1 :=
  ⟨(checked_inv_rat_spec.1 0).mpr rfl, checked_inv_rat_spec.2.2,
    (checked_inv_rat_spec.2.1 (2 / 3) (by norm_num)).2⟩

/-- C8 (code bug): `invert` on the integer units negates instead of
inverting — multiplying a unit `u` by `invert u` yields `-1`, never the
multiplicative identity. -/
theorem invert_int_negates :
    invert_int 1 = -1 ∧ (1 : ℤ) * invert_int 1 ≠ 1 ∧
    ∀ u : ℤ, u = 1 ∨ u = -1 → u * invert_int u = -1 := by
  refine ⟨rfl, by decide, ?_⟩
  rintro u (rfl | rfl) <;> decide

/-- C9: the rational coefficient-domain gcd panics (no result) exactly on
`0 gcd 0` and returns one on every other pair. -/
theorem rat_gcd_spec :
    (∀ a b : ℚ, rat_gcd a b = none ↔ a = 0 ∧ b = 0) ∧
    (∀ a b : ℚ, ¬(a = 0 ∧ b = 0) → rat_gcd a b = some 1) := by
  constructor
  · intro a b
    unfold rat_gcd
    split_ifs with h <;> simp [h]
  · intro a b h
    unfold rat_gcd
    rw [if_neg h]

/-- Witness for C9 at `(2/3, 0)` and `(0, 0)`, through the theorem itself. -/
theorem rat_gcd_spec_witness :
    rat_gcd (2 / 3 : ℚ) 0 = some 1 ∧ rat_gcd (0 : ℚ) 0 = none :=
  ⟨rat_gcd_spec.2 (2 / 3) 0 (by norm_num), (rat_gcd_spec.1 0 0).mpr ⟨rfl, rfl⟩⟩

/-- C10: `kronecker` returns the singleton factor list containing the input
whenever the input is zero or of degree at most one, and panics (no result)
on every degree at least two. -/
theorem kronecker_spec :
    (∀ p : List ℤ, (is_zero p ∨ ∃ d, degree p = some d ∧ d ≤ 1) → kronecker p = some [p]) ∧
    (∀ p : List ℤ, ∀ d, degree p = some d → 2 ≤ d → kronecker p = none) := by
  constructor
  · rintro p (hz | ⟨d, hd, hd1⟩)
    · have hz' : trim p = [] := hz
      unfold kronecker degree
      rw [if_pos hz']
    · unfold kronecker
      rw [hd]
      simp [hd1]
  · intro p d hd h2
    unfold kronecker
    rw [hd]
    have hnle : ¬d ≤ 1 := by omega
    simp [hnle]

/-- Witness for C10: zero polynomial, a degree-1 polynomial, and a degree-2
polynomial, through the theorem itself. -/
theorem kronecker_spec_witness :
    kronecker [] = some [[]] ∧ kronecker [3, 2] = some [[3, 2]] ∧ kronecker [0, 0, 1] = none :=
  ⟨kronecker_spec.1 [] (Or.inl (by decide)),
    kronecker_spec.1 [3, 2] (Or.inr ⟨1, by decide, by decide⟩),
    kronecker_spec.2 [0, 0, 1] 2 (by decide) (by decide)⟩

/-- C6: inside `square_free_factorization`, the checked inversion of the
leading coefficient of a non-zero polynomial always succeeds (returns the
inverse, never the panic-producing `none`). -/
theorem leading_coeff_inv_succeeds {F : Type} [Field F] [DecidableEq F]
    (p : List F) (hp : ¬is_zero p) :
    checked_inv (leading_coefficient_cloned p) = some (leading_coefficient_cloned p)⁻¹ := by
  have hne : trim p ≠ [] := hp
  have hlast := trim_last_ne_zero p hne
  unfold checked_inv leading_coefficient_cloned
  rw [if_neg hlast]

/-- Witness for C6 at the polynomial `2x` over `ℚ`, through the theorem
itself. -/
theorem leading_coeff_inv_succeeds_witness :
    checked_inv (leading_coefficient_cloned ([0, 2] : List ℚ)) =
      some (leading_coefficient_cloned ([0, 2] : List ℚ))⁻¹ :=
  leading_coeff_inv_succeeds [0, 2] (by with_unfolding_all decide)

/-- Elements of the loop body of `integer_divisors`: membership in the chunk
contributed by a candidate divisor `k`. -/
theorem mem_divisor_chunk (x k d : ℕ) :
    (d ∈ if x % k = 0 then (if x / k ≠ k then [x / k] else []) ++ [k] else []) ↔
      x % k = 0 ∧ (d = k ∨ (x / k ≠ k ∧ d = x / k)) := by
  by_cases hmod : x % k = 0
  · rw [if_pos hmod]
    by_cases hne : x / k ≠ k
    · rw [if_pos hne]
      simp [hmod, hne, or_comm]
    · rw [if_neg hne]
      push_neg at hne
      simp [hmod, hne]
  · rw [if_neg hmod]
    simp [hmod]

/-- A divisor `k ≤ √x` has cofactor `x / k ≥ √x`. -/
theorem sqrt_le_cofactor {x k : ℕ} (hk : 0 < k) (hks : k ≤ Nat.sqrt x) :
    Nat.sqrt x ≤ x / k := by
  rw [Nat.le_div_iff_mul_le hk]
  calc Nat.sqrt x * k ≤ Nat.sqrt x * Nat.sqrt x := Nat.mul_le_mul_left _ hks
    _ ≤ x := Nat.sqrt_le x

/-- C7 (amended): for every positive `x`, `integer_divisors x` contains
exactly the positive divisors of `x`; for `x ≥ 2` no value appears more than
once (on input `1` the list is `[1, 1]`, so distinctness needs `x ≥ 2`). -/
theorem integer_divisors_spec (x : ℕ) (hx : 0 < x) :
    (∀ d ∈ integer_divisors x, 0 < d ∧ d ∣ x) ∧
    (∀ d : ℕ, 0 < d → d ∣ x → d ∈ integer_divisors x) ∧
    (2 ≤ x → (integer_divisors x).Nodup) := by
  have hmem : ∀ d : ℕ, d ∈ integer_divisors x ↔
      d = 1 ∨ d = x ∨ ∃ k, (2 ≤ k ∧ k ≤ Nat.sqrt x) ∧ x % k = 0 ∧
        (d = k ∨ (x / k ≠ k ∧ d = x / k)) := by
    intro d
    unfold integer_divisors
    simp only [List.cons_append, List.nil_append, List.mem_cons, List.mem_flatMap,
      List.mem_range'_1, mem_divisor_chunk]
    constructor
    · rintro (h1 | hx' | ⟨k, ⟨hk2, hklt⟩, hrest⟩)
      · exact Or.inl h1
      · exact Or.inr (Or.inl hx')
      · exact Or.inr (Or.inr ⟨k, ⟨hk2, by omega⟩, hrest⟩)
    · rintro (h1 | hx' | ⟨k, ⟨hk2, hkle⟩, hrest⟩)
      · exact Or.inl h1
      · exact Or.inr (Or.inl hx')
      · have hs : 1 ≤ Nat.sqrt x := le_trans (by omega) hkle
        exact Or.inr (Or.inr ⟨k, ⟨hk2, by omega⟩, hrest⟩)
  refine ⟨?_, ?_, ?_⟩
  · intro d hd
    rw [hmem] at hd
    rcases hd with rfl | rfl | ⟨k, ⟨hk2, hks⟩, hmod, hd⟩
    · exact ⟨one_pos, one_dvd x⟩
    · exact ⟨hx, dvd_rfl⟩
    · have hkdvd : k ∣ x := Nat.dvd_of_mod_eq_zero hmod
      have hkx : k ≤ x := Nat.le_of_dvd hx hkdvd
      rcases hd with rfl | ⟨_, rfl⟩
      · exact ⟨by omega, hkdvd⟩
      · refine ⟨Nat.div_pos hkx (by omega), ?_⟩
        exact ⟨k, (Nat.div_mul_cancel hkdvd).symm⟩
  · intro d hd0 hdvd
    rw [hmem]
    by_cases h1 : d = 1
    · exact Or.inl h1
    by_cases hdx : d = x
    · exact Or.inr (Or.inl hdx)
    have hd2 : 2 ≤ d := by omega
    have hdlex : d ≤ x := Nat.le_of_dvd hx hdvd
    have hdltx : d < x := by omega
    by_cases hdsq : d ≤ Nat.sqrt x
    · exact Or.inr (Or.inr ⟨d, ⟨hd2, hdsq⟩, Nat.mod_eq_zero_of_dvd hdvd, Or.inl rfl⟩)
    · push_neg at hdsq
      set e := x / d with he
      have hde : d * e = x := Nat.mul_div_cancel' hdvd
      have hedvd : e ∣ x := ⟨d, by rw [← hde, Nat.mul_comm]⟩
      have he0 : 0 < e := Nat.div_pos hdlex (by omega)
      have hene : e ≠ 1 := by
        intro h
        rw [h, Nat.mul_one] at hde
        exact hdx hde
      have he2 : 2 ≤ e := by omega
      have hesq : e ≤ Nat.sqrt x := by
        by_contra hc
        push_neg at hc
        have hb : (Nat.sqrt x + 1) * (Nat.sqrt x + 1) ≤ d * e :=
          Nat.mul_le_mul (by omega) (by omega)
        have hlt := Nat.lt_succ_sqrt x
        simp only [Nat.succ_eq_add_one] at hlt
        omega
      refine Or.inr (Or.inr ⟨e, ⟨he2, hesq⟩, Nat.mod_eq_zero_of_dvd hedvd, Or.inr ⟨?_, ?_⟩⟩)
      · have : x / e = d := by
          rw [← hde, Nat.mul_comm, Nat.mul_div_cancel_left _ he0]
        rw [this]
        intro h
        rw [h] at hdsq
        exact absurd hesq (by omega)
      · rw [← hde, Nat.mul_comm, Nat.mul_div_cancel_left _ he0]
  · intro hx2
    unfold integer_divisors
    have hflat : ∀ d ∈ (List.range' 2 (Nat.sqrt x - 1)).flatMap (fun k =>
        if x % k = 0 then (if x / k ≠ k then [x / k] else []) ++ [k] else []),
        2 ≤ d ∧ d < x := by
      intro d hd
      rw [List.mem_flatMap] at hd
      obtain ⟨k, hk, hdk⟩ := hd
      rw [List.mem_range'_1] at hk
      rw [mem_divisor_chunk] at hdk
      obtain ⟨hmod, hd⟩ := hdk
      have hk2 : 2 ≤ k := hk.1
      have hks : k ≤ Nat.sqrt x := by omega
      have hsx : Nat.sqrt x < x := Nat.sqrt_lt_self (by omega)
      rcases hd with rfl | ⟨hne, rfl⟩
      · exact ⟨hk2, by omega⟩
      · have h1 := sqrt_le_cofactor (show 0 < k by omega) hks
        have h2 : x / k < x := Nat.div_lt_self (by omega) (by omega)
        exact ⟨by omega, h2⟩
    simp only [List.cons_append, List.nil_append]
    rw [List.nodup_cons, List.nodup_cons]
    refine ⟨?_, ?_, ?_⟩
    · rw [List.mem_cons]
      rintro (h | h)
      · omega
      · have := hflat 1 h
        omega
    · intro h
      have := hflat x h
      omega
    · rw [List.nodup_flatMap]
      constructor
      · intro k _
        by_cases hmod : x % k = 0
        · rw [if_pos hmod]
          by_cases hne : x / k ≠ k
          · rw [if_pos hne]
            simp [hne]
          · rw [if_neg hne]
            simp
        · rw [if_neg hmod]
          simp
      · refine (List.pairwise_lt_range' 2 (Nat.sqrt x - 1) 1 (by norm_num)).imp_of_mem ?_
        intro k₁ k₂ hk1 hk2 hlt
        rw [List.mem_range'_1] at hk1 hk2
        intro d hd1 hd2
        rw [mem_divisor_chunk] at hd1 hd2
        obtain ⟨hm1, hd1⟩ := hd1
        obtain ⟨hm2, hd2⟩ := hd2
        have h1dvd := Nat.dvd_of_mod_eq_zero hm1
        have h2dvd := Nat.dvd_of_mod_eq_zero hm2
        have hk1s : k₁ ≤ Nat.sqrt x := by omega
        have hk2s : k₂ ≤ Nat.sqrt x := by omega
        have hco1 := sqrt_le_cofactor (show 0 < k₁ by omega) hk1s
        have hco2 := sqrt_le_cofactor (show 0 < k₂ by omega) hk2s
        rcases hd1 with rfl | ⟨hne1, rfl⟩
        · rcases hd2 with h | ⟨hne2, h⟩
          · omega
          · omega
        · rcases hd2 with h | ⟨hne2, h⟩
          · have hde1 : k₁ * (x / k₁) = x := Nat.mul_div_cancel' h1dvd
            have hs2 := Nat.sqrt_le x
            have hxk1 : x / k₁ = Nat.sqrt x := by omega
            have hk1lt : k₁ < Nat.sqrt x := by omega
            have hmul : k₁ * Nat.sqrt x < Nat.sqrt x * Nat.sqrt x :=
              Nat.mul_lt_mul_of_lt_of_le hk1lt le_rfl (by omega)
            rw [hxk1] at hde1
            omega
          · have e1 : x / (x / k₁) = k₁ := Nat.div_div_self h1dvd (by omega)
            have e2 : x / (x / k₂) = k₂ := Nat.div_div_self h2dvd (by omega)
            rw [h] at e1
            omega

/-- Witness for C7 at `x = 12`, through the theorem itself. -/
theorem integer_divisors_spec_witness :
    (3 ∈ integer_divisors 12) ∧ (∀ d ∈ integer_divisors 12, 0 < d ∧ d ∣ 12) ∧
      (integer_divisors 12).Nodup :=
  ⟨(integer_divisors_spec 12 (by norm_num)).2.1 3 (by norm_num) (by norm_num),
    (integer_divisors_spec 12 (by norm_num)).1,
    (integer_divisors_spec 12 (by norm_num)).2.2 (by norm_num)⟩

/-- C1: for every non-zero polynomial over a field, if
`square_free_factorization` returns (within a machine-representable number of
loop iterations, `fuel + 1 ≤ usize_max`, so the saturating multiplicity
counter is exact), then the leading coefficient scalar-multiplied by the
product of each factor raised to its multiplicity reconstructs the input
polynomial exactly. -/
theorem sff_reconstruction {F : Type} [Field F] [DecidableEq F]
    (fuel : ℕ) (p : List F) (res : SquareFreeFactorization F)
    (hmax : fuel + 1 ≤ usize_max) (hp : ¬is_zero p)
    (h : square_free_factorization fuel p = some res) :
    Polynomial.C res.leading_coeff * factors_product res.factors = toPoly p := by
  obtain ⟨hlc, acc', f', j', hy, hfac⟩ := sff_shape hp h
  obtain ⟨hr0P, hf00, hf0P⟩ := sff_init_ne_zero p hp
  have hne : trim p ≠ [] := hp
  have hlast : leading_coefficient_cloned p ≠ 0 := trim_last_ne_zero p hne
  set lc := leading_coefficient_cloned p with hlc_def
  set u := scalar_mul lc⁻¹ p with hu_def
  set r0 := poly_gcd u (derivative u) with hr0_def
  set f0 := (div_rem u r0).1 with hf0_def
  have huP : toPoly u = Polynomial.C lc⁻¹ * toPoly p := toPoly_scalar_mul _ _
  have hinv : toPoly u = factors_product [] * toPoly f0 ^ 1 * toPoly r0 := by
    rw [factors_product_nil, one_mul, pow_one]
    exact hf0P.symm
  have hU := yun_loop_invariant (toPoly u) fuel r0 f0 1 [] acc' f' j' hy (by omega)
    hr0P hf00 hinv
  have hprod : factors_product res.factors = toPoly u := by
    rw [hfac]
    by_cases h1 : is_one f'
    · rw [if_pos h1]
      rw [toPoly_one_of_is_one f' h1, one_pow, mul_one] at hU
      exact hU.symm
    · rw [if_neg h1, factors_product_append_single]
      exact hU.symm
  rw [hlc, hprod, huP, ← mul_assoc, ← Polynomial.C_mul, mul_inv_cancel₀ hlast,
    Polynomial.C_1, one_mul]

/-- Witness for C1: the factorization of `x^2 - 2x + 1` over `ℚ` (which emits
the factors `x/8 - 1/8` with multiplicity 2 and the constant `4` with
multiplicity 3) reconstructs the input, through the theorem itself. -/
theorem sff_reconstruction_witness :
    square_free_factorization 10 ([1, -2, 1] : List ℚ) =
        some ⟨1, [([-(1 : ℚ)/8, 1/8], 2), ([4], 3)]⟩ ∧
      Polynomial.C (1 : ℚ) * factors_product [([-(1 : ℚ)/8, 1/8], 2), ([4], 3)] =
        toPoly [1, -2, 1] := by
  have h : square_free_factorization 10 ([1, -2, 1] : List ℚ) =
      some ⟨1, [([-(1 : ℚ)/8, 1/8], 2), ([4], 3)]⟩ := by with_unfolding_all decide
  exact ⟨h, sff_reconstruction 10 [1, -2, 1] ⟨1, [([-(1 : ℚ)/8, 1/8], 2), ([4], 3)]⟩
    (by norm_num [usize_max]) (by with_unfolding_all decide) h⟩

/-- C3: whenever `square_free_factorization` returns (within a
machine-representable number of loop iterations, so the saturating counter is
exact), the multiplicities in the emitted factor list strictly increase in
emission order — hence never repeat — and are all positive. -/
theorem sff_multiplicities {F : Type} [Field F] [DecidableEq F]
    (fuel : ℕ) (p : List F) (res : SquareFreeFactorization F)
    (hmax : fuel + 1 ≤ usize_max)
    (h : square_free_factorization fuel p = some res) :
    List.Pairwise (· < ·) (res.factors.map Prod.snd) ∧
      ∀ m ∈ res.factors.map Prod.snd, 0 < m := by
  by_cases hp : is_zero p
  · unfold square_free_factorization at h
    rw [if_pos hp] at h
    simp only [Option.some.injEq] at h
    rw [← h]
    simp
  · obtain ⟨-, acc', f', j', hy, hfac⟩ := sff_shape hp h
    obtain ⟨hpw, hbd, hj⟩ := yun_loop_mults fuel _ _ 1 [] acc' f' j' hy (by omega)
      one_pos (by simp) (by simp)
    rw [hfac]
    by_cases h1 : is_one f'
    · rw [if_pos h1]
      exact ⟨hpw, fun m hm => (hbd m hm).1⟩
    · rw [if_neg h1, List.map_append]
      constructor
      · rw [List.pairwise_append]
        refine ⟨hpw, by simp, ?_⟩
        intro m hm b hb
        simp only [List.map_cons, List.map_nil, List.mem_singleton] at hb
        rw [hb]
        exact (hbd m hm).2
      · intro m hm
        rcases List.mem_append.mp hm with hm | hm
        · exact (hbd m hm).1
        · simp only [List.map_cons, List.map_nil, List.mem_singleton] at hm
          omega

/-- Witness for C3: the multiplicities `[2, 3]` emitted for `x^2 - 2x + 1`
over `ℚ` strictly increase and are positive, through the theorem itself. -/
theorem sff_multiplicities_witness :
    List.Pairwise (· < ·) ([(([-(1 : ℚ)/8, 1/8] : List ℚ), 2), ([4], 3)].map Prod.snd) ∧
      ∀ m ∈ [(([-(1 : ℚ)/8, 1/8] : List ℚ), 2), ([4], 3)].map Prod.snd, 0 < m :=
  sff_multiplicities 10 [1, -2, 1] ⟨1, [([-(1 : ℚ)/8, 1/8], 2), ([4], 3)]⟩
    (by norm_num [usize_max]) (by with_unfolding_all decide)

/-- C4 (amended): re-factoring any factor emitted by
`square_free_factorization` yields a result whose `leading_coeff` is the
emitted factor's own leading coefficient (the factor-list half of the
original claim fails, see the counterexample). -/
theorem refactor_leading_coeff {F : Type} [Field F] [DecidableEq F]
    (fuel fuel' : ℕ) (p s : List F) (m : ℕ)
    (res res' : SquareFreeFactorization F)
    (h : square_free_factorization fuel p = some res)
    (hmem : (s, m) ∈ res.factors)
    (h' : square_free_factorization fuel' s = some res') :
    res'.leading_coeff = leading_coefficient_cloned s := by
  by_cases hp : is_zero p
  · unfold square_free_factorization at h
    rw [if_pos hp] at h
    simp only [Option.some.injEq] at h
    rw [← h] at hmem
    simp at hmem
  · obtain ⟨-, acc', f', j', hy, hfac⟩ := sff_shape hp h
    obtain ⟨hr0P, hf00, -⟩ := sff_init_ne_zero p hp
    obtain ⟨hf'0, hall⟩ := yun_loop_entries fuel _ _ 1 [] acc' f' j' hy hr0P hf00
      (by intro sm hsm; simp at hsm)
    have hs0 : toPoly s ≠ 0 := by
      rw [hfac] at hmem
      by_cases h1 : is_one f'
      · rw [if_pos h1] at hmem
        exact hall (s, m) hmem
      · rw [if_neg h1] at hmem
        rcases List.mem_append.mp hmem with hmem | hmem
        · exact hall (s, m) hmem
        · rw [List.mem_singleton] at hmem
          have hsf : s = f' := congrArg Prod.fst hmem
          rw [hsf]
          exact hf'0
    have hsz : ¬is_zero s := fun hz => hs0 ((toPoly_eq_zero_iff s).mpr hz)
    exact (sff_shape hsz h').1

/-- Witness for C4 (amended): re-factoring the factor `x^3 - x` emitted for
`x^3 - x` itself yields leading coefficient `1`, the factor's own leading
coefficient, through the theorem itself. -/
theorem refactor_leading_coeff_witness :
    (⟨1, [(([0, -1, 0, 1] : List ℚ), 1), ([-1], 2)]⟩ :
        SquareFreeFactorization ℚ).leading_coeff =
      leading_coefficient_cloned ([0, -1, 0, 1] : List ℚ) := by
  have h : square_free_factorization 10 ([0, -1, 0, 1] : List ℚ) =
      some ⟨1, [([0, -1, 0, 1], 1), ([-1], 2)]⟩ := by with_unfolding_all decide
  exact refactor_leading_coeff 10 10 [0, -1, 0, 1] [0, -1, 0, 1] 1 _ _ h
    (by with_unfolding_all decide) h

/-- C7 counterexample: on input `1` the divisor list is `[1, 1]` — the value
`1` appears twice, so the result is not duplicate-free on every positive
input. -/
theorem integer_divisors_one_duplicates :
    integer_divisors 1 = [1, 1] ∧ ¬(integer_divisors 1).Nodup :=
  ⟨by decide, by decide⟩

/-- C4 counterexample: factoring `x^3 - x` emits the factor `s = x^3 - x`
(multiplicity 1, leading coefficient 1, so `s` is its own monic form), yet
re-factoring `s` — the very same call — produces the factor list
`[(x^3 - x, 1), (-1, 2)]`, not exactly `[(monic s, 1)]`. -/
theorem refactor_not_idempotent :
    square_free_factorization 10 ([0, -1, 0, 1] : List ℚ) =
      some ⟨1, [([0, -1, 0, 1], 1), ([-1], 2)]⟩ ∧
    (([0, -1, 0, 1] : List ℚ), 1) ∈ [(([0, -1, 0, 1] : List ℚ), 1), ([-1], 2)] ∧
    scalar_mul (leading_coefficient_cloned ([0, -1, 0, 1] : List ℚ))⁻¹ [0, -1, 0, 1] =
      [0, -1, 0, 1] ∧
    [(([0, -1, 0, 1] : List ℚ), 1), ([-1], 2)] ≠ [(([0, -1, 0, 1] : List ℚ), 1)] :=
  ⟨by with_unfolding_all decide, by with_unfolding_all decide, by with_unfolding_all decide,
    by with_unfolding_all decide⟩

end Math2
